import Mathlib

/-!
Shallow embedding of `src/NameGenerator.py` (class `NameGenerator`).

Strings are modelled as `List Char`.  Python's `str.strip`, `str.lower`,
`str.upper` and `str.capitalize` are modelled on their ASCII behaviour
(the corpora and all character sets in the program are ASCII).

Randomness is modelled by an explicit oracle `Rand`: a stream of natural
numbers (one consumed by every call to `random.choices` / `random.choice`,
the chosen index being the draw modulo the relevant total weight or length,
so that exactly the outcomes of positive weight are reachable) and a stream
of rationals in `[0,1)` (one consumed by every call to `random.random()`).
Python `float`s (the `noise` parameter) are modelled as rationals.

Python counters and dicts are modelled as insertion-ordered association
lists (`Dist`), matching Python's dict iteration order, and Python sets as
duplicate-free lists built by `addOnce`.

Fallible operations return `Option`: `none` models a raised exception
(e.g. `ValueError` from a weighted draw over an empty distribution).
The unbounded `while True:` loop of `random_name` is modelled with an
explicit outer-iteration fuel; the inner loop of `_generate_next_char` is
intrinsically bounded by its attempt counter (`counter >= 100` after a
pre-increment allows exactly 99 candidate attempts) and is modelled by a
structural countdown from 99, carrying the number of attempts made.
-/

namespace NameGen

/-- Strings of the Python program, as lists of characters. -/
abbrev Str := List Char

/-- The 26-letter lowercase alphabet, `'abcdefghijklmnopqrstuvwxyz'` in the source. -/
def lowercase_alphabet : Str :=
  ['a','b','c','d','e','f','g','h','i','j','k','l','m',
   'n','o','p','q','r','s','t','u','v','w','x','y','z']

/-- The uppercase alphabet, used to model ASCII case mapping. -/
def uppercase_alphabet : Str :=
  ['A','B','C','D','E','F','G','H','I','J','K','L','M',
   'N','O','P','Q','R','S','T','U','V','W','X','Y','Z']

/-- The vowel string `'aeiou'` of the source. -/
def vowelChars : Str := ['a','e','i','o','u']

/-- ASCII whitespace characters stripped by Python's `str.strip()`. -/
def whitespaceChars : Str := [' ', '\t', '\n', '\r', '\x0b', '\x0c']

/-- ASCII case table: each lowercase letter paired with its uppercase form. -/
def caseTable : List (Char × Char) := lowercase_alphabet.zip uppercase_alphabet

/-- ASCII model of Python's `str.lower` on a single character. -/
def toLowerChar (c : Char) : Char :=
  match caseTable.find? (fun p => p.2 == c) with
  | some p => p.1
  | none => c

/-- ASCII model of Python's `str.upper` on a single character. -/
def toUpperChar (c : Char) : Char :=
  match caseTable.find? (fun p => p.1 == c) with
  | some p => p.2
  | none => c

/-- `c` is one of the 26 lowercase letters. -/
def isLowerAlpha (c : Char) : Bool := decide (c ∈ lowercase_alphabet)

/-- `c` is one of the 26 uppercase letters. -/
def isUpperAlpha (c : Char) : Bool := decide (c ∈ uppercase_alphabet)

/-- Membership in the ASCII whitespace set. -/
def isSpaceChar (c : Char) : Bool := decide (c ∈ whitespaceChars)

/-- Python `line.strip()`: remove leading and trailing whitespace. -/
def pyStrip (s : Str) : Str :=
  ((s.dropWhile isSpaceChar).reverse.dropWhile isSpaceChar).reverse

/-- Python `s.lower()` (ASCII). -/
def pyLower (s : Str) : Str := s.map toLowerChar

/-- Python `s.capitalize()` (ASCII): first character upper-cased, the
remaining characters lower-cased. -/
def capitalize (s : Str) : Str :=
  match s with
  | [] => []
  | c :: cs => toUpperChar c :: cs.map toLowerChar

/-- A `collections.Counter` / weight dict: an insertion-ordered association
list from keys to counts. -/
abbrev Dist (α : Type) := List (α × Nat)

/-- `d[k] += 1` on a counter: bump an existing key in place or append a new
key with count 1 (Python dicts preserve insertion order). -/
def distIncr [DecidableEq α] : Dist α → α → Dist α
  | [], k => [(k, 1)]
  | (a, n) :: rest, k =>
    if a = k then (a, n + 1) :: rest else (a, n) :: distIncr rest k

/-- Total weight of a distribution. -/
def distTotal (d : Dist α) : Nat := (d.map Prod.snd).sum

/-- Select the item whose cumulative-weight interval contains `k`
(the discrete-sampling core of `random.choices`). -/
def distSelect : Dist α → Nat → Option α
  | [], _ => none
  | (a, w) :: rest, k => if k < w then some a else distSelect rest (k - w)

/-- The letter-pair table `defaultdict(Counter)`: per-letter transition counters,
insertion-ordered. -/
abbrev Rows := List (Char × Dist Char)

/-- `letter_pairs[a][b] += 1` (a `defaultdict` creates the row on first use). -/
def rowsIncr : Rows → Char → Char → Rows
  | [], a, b => [(a, [(b, 1)])]
  | (c, d) :: rest, a, b =>
    if c = a then (c, distIncr d b) :: rest else (c, d) :: rowsIncr rest a b

/-- `letter_pairs.get(c)`: the transition row of `c`, if present. -/
def rowsGet (rows : Rows) (c : Char) : Option (Dist Char) :=
  match rows.find? (fun p => p.1 == c) with
  | some p => some p.2
  | none => none

/-- `s.add(x)` on a Python set, modelled as a duplicate-free list. -/
def addOnce [DecidableEq α] (s : List α) (x : α) : List α :=
  if x ∈ s then s else s ++ [x]

/-- The statistics bundle held by a `NameGenerator` instance after training
(the `LetterModel` of the specification): the six fields set up in
`__init__` and filled by `_analyze_names`. -/
structure NameGenState where
  letter_pairs : Rows
  trigrams : List Str
  first_letter_distribution : Dist Char
  length_distribution : Dist Nat
  first_two_letter_digrams : List Str
  last_two_letter_digrams : List Str
deriving DecidableEq

/-- The empty state created in `__init__` before any training. -/
def initialState : NameGenState :=
  { letter_pairs := []
    trigrams := []
    first_letter_distribution := []
    length_distribution := []
    first_two_letter_digrams := []
    last_two_letter_digrams := [] }

/-- `VOWEL_COUNTER = Counter({'a': 1, 'e': 1, 'i': 1, 'o': 1, 'u': 1})`. -/
def VOWEL_COUNTER : Dist Char := [('a',1), ('e',1), ('i',1), ('o',1), ('u',1)]

/-- The input filtering of `_analyze_names`:
`[line.strip().lower() for line in file if len(line.strip()) >= 2]`. -/
def filteredNames (lines : List Str) : List Str :=
  (lines.filter (fun l => 2 ≤ (pyStrip l).length)).map (fun l => pyLower (pyStrip l))

/-- The inner loop of `_analyze_names`:
`for i in range(len(name) - 1): letter_pairs[name[i]][name[i+1]] += 1;
if i < len(name) - 2: trigrams.add(name[i:i+3])`, expressed as a walk over
the suffixes of the name. -/
def analyzeWindows : Rows → List Str → Str → Rows × List Str
  | lp, tg, a :: b :: rest =>
    analyzeWindows (rowsIncr lp a b)
      (match rest with
       | c :: _ => addOnce tg [a, b, c]
       | [] => tg)
      (b :: rest)
  | lp, tg, _ => (lp, tg)

/-- The per-name body of `_analyze_names`: bump the first-letter and length
counters, record the first and last digrams (`name[:2]`, `name[-2:]`), and
process all letter pairs and trigrams. -/
def analyzeName (st : NameGenState) (name : Str) : NameGenState :=
  { letter_pairs := (analyzeWindows st.letter_pairs st.trigrams name).1
    trigrams := (analyzeWindows st.letter_pairs st.trigrams name).2
    first_letter_distribution :=
      distIncr st.first_letter_distribution (name.headD ' ')
    length_distribution := distIncr st.length_distribution name.length
    first_two_letter_digrams :=
      addOnce st.first_two_letter_digrams (name.take 2)
    last_two_letter_digrams :=
      addOnce st.last_two_letter_digrams (name.drop (name.length - 2)) }

/-- `_analyze_names`, taking the corpus lines directly (file loading is out
of scope): filter the lines, then fold the per-name analysis over them. -/
def analyze_names (lines : List Str) : NameGenState :=
  (filteredNames lines).foldl analyzeName initialState

/-- A rational in `[0,1)`: one outcome of Python's `random.random()`. -/
def UnitRat : Type := {q : ℚ // 0 ≤ q ∧ q < 1}

/-- Oracle for the random draws of one run: a stream of naturals (consumed
by `random.choices` and `random.choice`) and a stream of unit-interval
rationals (consumed by `random.random()`). -/
structure Rand where
  ints : Nat → Nat
  units : Nat → UnitRat

/-- Consume one natural draw. -/
def Rand.nextInt (r : Rand) : Nat × Rand :=
  (r.ints 0, { ints := fun n => r.ints (n + 1), units := r.units })

/-- Consume one `random.random()` draw. -/
def Rand.nextUnit (r : Rand) : ℚ × Rand :=
  ((r.units 0).val, { ints := r.ints, units := fun n => r.units (n + 1) })

/-- `_weighted_random_choice(distribution)`: `none` models the `ValueError`
Python raises when the distribution is empty (`zip(*{}.items())`) or its
total weight is zero (`random.choices`); otherwise the draw selects any
item of positive weight, by cumulative weights. -/
def weighted_random_choice (d : Dist α) (r : Rand) : Option (α × Rand) :=
  if distTotal d = 0 then none
  else
    match distSelect d (r.nextInt.1 % distTotal d) with
    | some a => some (a, r.nextInt.2)
    | none => none

/-- `random.choice(s)` on a string: uniform over its characters,
`none` modelling the `IndexError` on an empty string. -/
def pyChoice (s : Str) (r : Rand) : Option (Char × Rand) :=
  match s.get? (r.nextInt.1 % s.length) with
  | some c => some (c, r.nextInt.2)
  | none => none

/-- The three `if ...: continue` rejection tests of `_generate_next_char`:
`True` iff the candidate `next_char` is rejected.  (`name[0] + next_char`
and `name[-1] + next_char` are written with `headD`/`getLastD`; `name` is
never empty at any call site, where Python would raise.) -/
def rejectedChar (st : NameGenState) (name : Str) (length : Nat) (next_char : Char) : Bool :=
  (decide (name.length = 1) &&
    !(decide ([name.headD ' ', next_char] ∈ st.first_two_letter_digrams)))
  || (decide (2 ≤ name.length) &&
    !(decide ((name.drop (name.length - 2) ++ [next_char]) ∈ st.trigrams)))
  || (decide (length - 1 ≤ name.length) &&
    !(decide ([name.getLastD ' ', next_char] ∈ st.last_two_letter_digrams)))

/-- One candidate generation of `_generate_next_char`: a uniformly random
letter if `use_random`, otherwise a weighted draw from
`letter_pairs.get(name[-1], VOWEL_COUNTER)`. -/
def attemptChar (st : NameGenState) (name : Str) (use_random : Bool) (r : Rand) :
    Option (Char × Rand) :=
  if use_random then pyChoice lowercase_alphabet r
  else
    weighted_random_choice ((rowsGet st.letter_pairs (name.getLastD ' ')).getD VOWEL_COUNTER) r

/-- The `while True` loop of `_generate_next_char`.  The source pre-increments
`counter` and falls back when `counter >= 100`, so candidates are generated
for `counter = 1, ..., 99` only: `remaining` counts down from 99 and
`counter` mirrors the source's variable (the number of candidate attempts
made so far).  Result: the character, whether the emergency vowel fallback
fired, the number of candidate attempts made, and the remaining oracle. -/
def generate_next_char_loop (st : NameGenState) (name : Str) (length : Nat)
    (use_random : Bool) : Nat → Nat → Rand → Option (Char × Bool × Nat × Rand)
  | 0, counter, r =>
    match pyChoice vowelChars r with
    | some cr => some (cr.1, true, counter, cr.2)
    | none => none
  | remaining + 1, counter, r =>
    match attemptChar st name use_random r with
    | none => none
    | some cr =>
      if rejectedChar st name length cr.1 then
        generate_next_char_loop st name length use_random remaining (counter + 1) cr.2
      else
        some (cr.1, false, counter + 1, cr.2)

/-- `_generate_next_char(name, length, noise)`: decide once whether this
character is random (`random.random() < noise`), then run the attempt loop. -/
def generate_next_char (st : NameGenState) (name : Str) (length : Nat)
    (noise : ℚ) (r : Rand) : Option (Char × Bool × Nat × Rand) :=
  generate_next_char_loop st name length (decide (r.nextUnit.1 < noise)) 99 0 r.nextUnit.2

/-- `for _ in range(length - 1): name += self._generate_next_char(...)`,
also accumulating whether any emergency fallback fired. -/
def appendChars (st : NameGenState) (noise : ℚ) (length : Nat) :
    Nat → Str → Bool → Rand → Option (Str × Bool × Rand)
  | 0, name, fb, r => some (name, fb, r)
  | k + 1, name, fb, r =>
    match generate_next_char st name length noise r with
    | none => none
    | some res => appendChars st noise length k (name ++ [res.1]) (fb || res.2.1) res.2.2.2

/-- `any(char in 'aeiou' for char in name)`. -/
def hasVowel (name : Str) : Bool := name.any (fun c => decide (c ∈ vowelChars))

/-- One iteration of the `while True` loop of `random_name`: draw a length
and a first letter, append `length - 1` characters, then either return the
capitalized name (`some (some ...)`), reject it for containing no vowel
(`some (none, r)`, restart), or propagate an exception (`none`). -/
def random_name_step (st : NameGenState) (noise : ℚ) (r : Rand) :
    Option (Option (Str × Bool) × Rand) :=
  match weighted_random_choice st.length_distribution r with
  | none => none
  | some lr =>
    match weighted_random_choice st.first_letter_distribution lr.2 with
    | none => none
    | some fr =>
      match appendChars st noise lr.1 (lr.1 - 1) [fr.1] false fr.2 with
      | none => none
      | some nr =>
        if hasVowel nr.1 then some (some (capitalize nr.1, nr.2.1), nr.2.2)
        else some (none, nr.2.2)

/-- `random_name(noise)`, with explicit fuel for the unbounded outer retry
loop: `none` when the fuel runs out (or an exception propagates), otherwise
the returned capitalized name together with the flag telling whether any
emergency fallback fired while building it. -/
def random_name (st : NameGenState) (noise : ℚ) : Nat → Rand → Option (Str × Bool)
  | 0, _ => none
  | fuel + 1, r =>
    match random_name_step st noise r with
    | none => none
    | some (some result, _) => some result
    | some (none, r2) => random_name st noise fuel r2

/-- The concrete scenario corpus of the specification: `["ann", "anna", "ana"]`. -/
def demoCorpus : List Str := [['a','n','n'], ['a','n','n','a'], ['a','n','a']]

/-- The model trained on the scenario corpus. -/
def demoModel : NameGenState := analyze_names demoCorpus

/-- A unit-interval rational equal to zero. -/
def unitZero : UnitRat := ⟨0, by norm_num⟩

/-- The all-zeros oracle. -/
def zeroRand : Rand := { ints := fun _ => 0, units := fun _ => unitZero }

/-- An oracle driving `random_name demoModel 0`: draw length 4 and first
letter `'a'`, pick `'n'` then `'a'` (reaching the partial name `"ana"`),
fail all 99 candidate attempts for the final position, and let the
emergency fallback pick `'e'`. -/
def anaeRand : Rand :=
  { ints := fun n => if n = 0 then 2 else if n = 3 then 2 else if n = 103 then 1 else 0,
    units := fun _ => unitZero }

/-- A vowel-free corpus: the single name `"bcd"`. -/
def bcdCorpus : List Str := [['b','c','d']]

/-- `d` occurs as a contiguous segment of `l`. -/
def SubSeg (d l : Str) : Prop := ∃ u v, l = u ++ d ++ v

/-- The data-model invariants of a trained model (§3 of the specification):
transition keys and next-letter keys are lowercase letters with positive
counts, first-letter keys are lowercase letters with positive counts,
length keys are at least 2 with positive counts, and the digram/trigram
sets contain only lowercase alphabetic strings of the declared lengths. -/
def ValidModel (st : NameGenState) : Prop :=
  (∀ p ∈ st.letter_pairs, isLowerAlpha p.1 = true ∧
    ∀ q ∈ p.2, isLowerAlpha q.1 = true ∧ 1 ≤ q.2) ∧
  (∀ q ∈ st.first_letter_distribution, isLowerAlpha q.1 = true ∧ 1 ≤ q.2) ∧
  (∀ q ∈ st.length_distribution, 2 ≤ q.1 ∧ 1 ≤ q.2) ∧
  (∀ d ∈ st.first_two_letter_digrams, d.length = 2 ∧ ∀ c ∈ d, isLowerAlpha c = true) ∧
  (∀ d ∈ st.trigrams, d.length = 3 ∧ ∀ c ∈ d, isLowerAlpha c = true) ∧
  (∀ d ∈ st.last_two_letter_digrams, d.length = 2 ∧ ∀ c ∈ d, isLowerAlpha c = true)

/-! ## Generic sampling lemmas -/

theorem distSelect_mem (d : Dist α) : ∀ (k : Nat) (a : α),
    distSelect d k = some a → ∃ w, (a, w) ∈ d ∧ 0 < w := by
  induction d with
  | nil => intro k a h; simp [distSelect] at h
  | cons p rest ih =>
    intro k a h
    obtain ⟨b, w⟩ := p
    rw [distSelect] at h
    by_cases hk : k < w
    · rw [if_pos hk] at h
      injection h with h
      subst h
      exact ⟨w, List.mem_cons_self _ _, Nat.lt_of_le_of_lt (Nat.zero_le k) hk⟩
    · rw [if_neg hk] at h
      obtain ⟨w2, hm, hw⟩ := ih _ _ h
      exact ⟨w2, List.mem_cons_of_mem _ hm, hw⟩

theorem distSelect_isSome (d : Dist α) : ∀ k, k < distTotal d →
    (distSelect d k).isSome = true := by
  induction d with
  | nil => intro k h; simp [distTotal] at h
  | cons p rest ih =>
    intro k h
    obtain ⟨b, w⟩ := p
    rw [distSelect]
    by_cases hk : k < w
    · rw [if_pos hk]; rfl
    · rw [if_neg hk]
      refine ih _ ?_
      simp only [distTotal, List.map_cons, List.sum_cons] at h
      simp only [distTotal]
      omega

theorem weighted_random_choice_mem (d : Dist α) (r : Rand) (a : α) (r2 : Rand)
    (h : weighted_random_choice d r = some (a, r2)) : ∃ w, (a, w) ∈ d ∧ 0 < w := by
  rw [weighted_random_choice] at h
  by_cases ht : distTotal d = 0
  · rw [if_pos ht] at h; exact absurd h (by simp)
  · rw [if_neg ht] at h
    cases hs : distSelect d (r.nextInt.1 % distTotal d) with
    | none => rw [hs] at h; exact absurd h (by simp)
    | some b =>
      rw [hs] at h
      injection h with h
      have h1 : b = a := (Prod.ext_iff.mp h).1
      exact h1 ▸ distSelect_mem d _ _ hs

theorem weighted_random_choice_isSome (d : Dist α) (r : Rand)
    (h : 0 < distTotal d) :
    ∃ a r2, weighted_random_choice d r = some (a, r2) := by
  rw [weighted_random_choice, if_neg (Nat.pos_iff_ne_zero.mp h)]
  have hlt : r.nextInt.1 % distTotal d < distTotal d := Nat.mod_lt _ h
  cases hs : distSelect d (r.nextInt.1 % distTotal d) with
  | none =>
    have hsome := distSelect_isSome d _ hlt
    rw [hs] at hsome
    cases hsome
  | some a => exact ⟨a, r.nextInt.2, rfl⟩

theorem pyChoice_mem (s : Str) (r : Rand) (c : Char) (r2 : Rand)
    (h : pyChoice s r = some (c, r2)) : c ∈ s := by
  rw [pyChoice] at h
  cases hs : s.get? (r.nextInt.1 % s.length) with
  | none => rw [hs] at h; exact absurd h (by simp)
  | some b =>
    rw [hs] at h
    injection h with h
    have hb : b ∈ s := List.get?_mem hs
    have hbc : b = c := (Prod.ext_iff.mp h).1
    exact hbc ▸ hb

theorem pyChoice_isSome (s : Str) (r : Rand) (h : s ≠ []) :
    ∃ c r2, pyChoice s r = some (c, r2) := by
  have hlen : 0 < s.length := List.length_pos.mpr h
  have hlt : r.nextInt.1 % s.length < s.length := Nat.mod_lt _ hlen
  rw [pyChoice]
  cases hs : s.get? (r.nextInt.1 % s.length) with
  | none =>
    rw [List.get?_eq_get hlt] at hs
    cases hs
  | some c => exact ⟨c, r.nextInt.2, rfl⟩

/-! ## Lemmas on the next-character loop -/

theorem attemptChar_modeled_mem (st : NameGenState) (name : Str) (r : Rand)
    (c : Char) (r2 : Rand) (h : attemptChar st name false r = some (c, r2)) :
    ∃ w, (c, w) ∈ (rowsGet st.letter_pairs (name.getLastD ' ')).getD VOWEL_COUNTER ∧ 0 < w := by
  rw [attemptChar, if_neg (by simp)] at h
  exact weighted_random_choice_mem _ _ _ _ h

theorem generate_next_char_loop_accept (st : NameGenState) (name : Str)
    (length : Nat) (use_random : Bool) : ∀ (rem counter : Nat) (r : Rand)
    (c : Char) (k : Nat) (r2 : Rand),
    generate_next_char_loop st name length use_random rem counter r = some (c, false, k, r2) →
    rejectedChar st name length c = false := by
  intro rem
  induction rem with
  | zero =>
    intro counter r c k r2 h
    rw [generate_next_char_loop] at h
    cases hp : pyChoice vowelChars r with
    | none => rw [hp] at h; cases h
    | some cr =>
      rw [hp] at h
      injection h with h
      exact absurd (Prod.ext_iff.mp h).2 (by simp)
  | succ rem ih =>
    intro counter r c k r2 h
    rw [generate_next_char_loop] at h
    cases ha : attemptChar st name use_random r with
    | none => rw [ha] at h; cases h
    | some cr =>
      rw [ha] at h
      dsimp only at h
      by_cases hrej : rejectedChar st name length cr.1 = true
      · rw [if_pos hrej] at h
        exact ih _ _ _ _ _ h
      · rw [if_neg hrej] at h
        injection h with h
        have h1 : cr.1 = c := (Prod.ext_iff.mp h).1
        exact h1 ▸ Bool.eq_false_iff.mpr hrej

theorem generate_next_char_loop_modeled_mem (st : NameGenState) (name : Str)
    (length : Nat) : ∀ (rem counter : Nat) (r : Rand) (c : Char) (k : Nat) (r2 : Rand),
    generate_next_char_loop st name length false rem counter r = some (c, false, k, r2) →
    ∃ w, (c, w) ∈ (rowsGet st.letter_pairs (name.getLastD ' ')).getD VOWEL_COUNTER ∧ 0 < w := by
  intro rem
  induction rem with
  | zero =>
    intro counter r c k r2 h
    rw [generate_next_char_loop] at h
    cases hp : pyChoice vowelChars r with
    | none => rw [hp] at h; cases h
    | some cr =>
      rw [hp] at h
      injection h with h
      exact absurd (Prod.ext_iff.mp h).2 (by simp)
  | succ rem ih =>
    intro counter r c k r2 h
    rw [generate_next_char_loop] at h
    cases ha : attemptChar st name false r with
    | none => rw [ha] at h; cases h
    | some cr =>
      rw [ha] at h
      dsimp only at h
      by_cases hrej : rejectedChar st name length cr.1 = true
      · rw [if_pos hrej] at h
        exact ih _ _ _ _ _ h
      · rw [if_neg hrej] at h
        injection h with h
        have h1 : cr.1 = c := (Prod.ext_iff.mp h).1
        obtain ⟨b, rb⟩ := cr
        exact h1 ▸ attemptChar_modeled_mem st name r b rb ha

theorem generate_next_char_loop_attempts (st : NameGenState) (name : Str)
    (length : Nat) (use_random : Bool) : ∀ (rem counter : Nat) (r : Rand)
    (c : Char) (fb : Bool) (k : Nat) (r2 : Rand),
    generate_next_char_loop st name length use_random rem counter r = some (c, fb, k, r2) →
    k ≤ counter + rem ∧ (fb = true → k = counter + rem) := by
  intro rem
  induction rem with
  | zero =>
    intro counter r c fb k r2 h
    rw [generate_next_char_loop] at h
    cases hp : pyChoice vowelChars r with
    | none => rw [hp] at h; cases h
    | some cr =>
      rw [hp] at h
      injection h with h
      have h2 := (Prod.ext_iff.mp h).2
      have hk : counter = k := (Prod.ext_iff.mp (Prod.ext_iff.mp h2).2).1
      omega
  | succ rem ih =>
    intro counter r c fb k r2 h
    rw [generate_next_char_loop] at h
    cases ha : attemptChar st name use_random r with
    | none => rw [ha] at h; cases h
    | some cr =>
      rw [ha] at h
      dsimp only at h
      by_cases hrej : rejectedChar st name length cr.1 = true
      · rw [if_pos hrej] at h
        obtain ⟨h1, h2⟩ := ih _ _ _ _ _ _ h
        exact ⟨by omega, fun hfb => by have := h2 hfb; omega⟩
      · rw [if_neg hrej] at h
        injection h with h
        have h2 := (Prod.ext_iff.mp h).2
        have hfb : false = fb := (Prod.ext_iff.mp h2).1
        have hk : counter + 1 = k := (Prod.ext_iff.mp (Prod.ext_iff.mp h2).2).1
        constructor
        · omega
        · intro hfb2; rw [← hfb] at hfb2; cases hfb2

theorem generate_next_char_zero_noise (st : NameGenState) (name : Str)
    (length : Nat) (r : Rand) :
    generate_next_char st name length 0 r =
      generate_next_char_loop st name length false 99 0 r.nextUnit.2 := by
  have hd : decide (r.nextUnit.1 < (0 : ℚ)) = false :=
    decide_eq_false (not_lt.mpr (r.units 0).2.1)
  rw [generate_next_char, hd]

theorem generate_next_char_accept (st : NameGenState) (name : Str)
    (length : Nat) (noise : ℚ) (r : Rand) (c : Char) (k : Nat) (r2 : Rand)
    (h : generate_next_char st name length noise r = some (c, false, k, r2)) :
    rejectedChar st name length c = false := by
  rw [generate_next_char] at h
  exact generate_next_char_loop_accept _ _ _ _ _ _ _ _ _ _ h

theorem generate_next_char_modeled_mem (st : NameGenState) (name : Str)
    (length : Nat) (r : Rand) (c : Char) (k : Nat) (r2 : Rand)
    (h : generate_next_char st name length 0 r = some (c, false, k, r2)) :
    ∃ w, (c, w) ∈ (rowsGet st.letter_pairs (name.getLastD ' ')).getD VOWEL_COUNTER ∧ 0 < w := by
  rw [generate_next_char_zero_noise] at h
  exact generate_next_char_loop_modeled_mem _ _ _ _ _ _ _ _ _ h

theorem rowsGet_mem (rows : Rows) (ch : Char) (d : Dist Char)
    (h : rowsGet rows ch = some d) : ∃ p ∈ rows, p.2 = d := by
  rw [rowsGet] at h
  cases hf : rows.find? (fun p => p.1 == ch) with
  | none => rw [hf] at h; cases h
  | some p =>
    rw [hf] at h
    injection h with h
    exact ⟨p, List.mem_of_find?_eq_some hf, h⟩

theorem attemptChar_lower (st : NameGenState) (name : Str) (use_random : Bool)
    (r : Rand) (c : Char) (r2 : Rand)
    (hrows : ∀ p ∈ st.letter_pairs, ∀ q ∈ p.2, isLowerAlpha q.1 = true)
    (h : attemptChar st name use_random r = some (c, r2)) :
    isLowerAlpha c = true := by
  rw [attemptChar] at h
  cases use_random with
  | true =>
    rw [if_pos rfl] at h
    exact decide_eq_true (pyChoice_mem _ _ _ _ h)
  | false =>
    rw [if_neg (by simp)] at h
    obtain ⟨w, hm, _⟩ := weighted_random_choice_mem _ _ _ _ h
    cases hg : rowsGet st.letter_pairs (name.getLastD ' ') with
    | some row =>
      rw [hg] at hm
      obtain ⟨p, hp, hpd⟩ := rowsGet_mem _ _ _ hg
      exact hrows p hp (c, w) (hpd.symm ▸ hm)
    | none =>
      rw [hg] at hm
      have hv : ∀ q ∈ VOWEL_COUNTER, isLowerAlpha q.1 = true := by decide
      exact hv (c, w) hm

theorem generate_next_char_loop_lower (st : NameGenState) (name : Str)
    (length : Nat) (use_random : Bool)
    (hrows : ∀ p ∈ st.letter_pairs, ∀ q ∈ p.2, isLowerAlpha q.1 = true) :
    ∀ (rem counter : Nat) (r : Rand) (c : Char) (fb : Bool) (k : Nat) (r2 : Rand),
    generate_next_char_loop st name length use_random rem counter r = some (c, fb, k, r2) →
    isLowerAlpha c = true := by
  intro rem
  induction rem with
  | zero =>
    intro counter r c fb k r2 h
    rw [generate_next_char_loop] at h
    cases hp : pyChoice vowelChars r with
    | none => rw [hp] at h; cases h
    | some cr =>
      rw [hp] at h
      injection h with h
      have h1 : cr.1 = c := (Prod.ext_iff.mp h).1
      have hcv : cr.1 ∈ vowelChars := by
        obtain ⟨b, rb⟩ := cr
        exact pyChoice_mem _ _ _ _ hp
      have hv : ∀ x ∈ vowelChars, isLowerAlpha x = true := by decide
      exact h1 ▸ hv _ hcv
  | succ rem ih =>
    intro counter r c fb k r2 h
    rw [generate_next_char_loop] at h
    cases ha : attemptChar st name use_random r with
    | none => rw [ha] at h; cases h
    | some cr =>
      rw [ha] at h
      dsimp only at h
      by_cases hrej : rejectedChar st name length cr.1 = true
      · rw [if_pos hrej] at h
        exact ih _ _ _ _ _ _ h
      · rw [if_neg hrej] at h
        injection h with h
        have h1 : cr.1 = c := (Prod.ext_iff.mp h).1
        obtain ⟨b, rb⟩ := cr
        exact h1 ▸ attemptChar_lower st name use_random r b rb hrows ha

theorem generate_next_char_lower (st : NameGenState) (name : Str)
    (length : Nat) (noise : ℚ) (r : Rand) (c : Char) (fb : Bool) (k : Nat) (r2 : Rand)
    (hrows : ∀ p ∈ st.letter_pairs, ∀ q ∈ p.2, isLowerAlpha q.1 = true)
    (h : generate_next_char st name length noise r = some (c, fb, k, r2)) :
    isLowerAlpha c = true := by
  rw [generate_next_char] at h
  exact generate_next_char_loop_lower st name length _ hrows _ _ _ _ _ _ _ h

theorem attemptChar_isSome (st : NameGenState) (name : Str) (use_random : Bool)
    (r : Rand) (hrows : ∀ p ∈ st.letter_pairs, 0 < distTotal p.2) :
    ∃ c r2, attemptChar st name use_random r = some (c, r2) := by
  rw [attemptChar]
  cases use_random with
  | true =>
    rw [if_pos rfl]
    exact pyChoice_isSome _ _ (by simp [lowercase_alphabet])
  | false =>
    rw [if_neg (by simp)]
    refine weighted_random_choice_isSome _ _ ?_
    cases hg : rowsGet st.letter_pairs (name.getLastD ' ') with
    | some row =>
      obtain ⟨p, hp, hpd⟩ := rowsGet_mem _ _ _ hg
      simpa [hpd] using hrows p hp
    | none => simp [distTotal, VOWEL_COUNTER]

theorem generate_next_char_loop_isSome (st : NameGenState) (name : Str)
    (length : Nat) (use_random : Bool)
    (hrows : ∀ p ∈ st.letter_pairs, 0 < distTotal p.2) :
    ∀ (rem counter : Nat) (r : Rand),
    ∃ out, generate_next_char_loop st name length use_random rem counter r = some out := by
  intro rem
  induction rem with
  | zero =>
    intro counter r
    rw [generate_next_char_loop]
    obtain ⟨c, r2, hp⟩ := pyChoice_isSome vowelChars r (by simp [vowelChars])
    rw [hp]
    exact ⟨_, rfl⟩
  | succ rem ih =>
    intro counter r
    rw [generate_next_char_loop]
    obtain ⟨c, r2, ha⟩ := attemptChar_isSome st name use_random r hrows
    rw [ha]
    dsimp only
    by_cases hrej : rejectedChar st name length c = true
    · rw [if_pos hrej]
      exact ih _ _
    · rw [if_neg hrej]
      exact ⟨_, rfl⟩

theorem generate_next_char_isSome (st : NameGenState) (name : Str)
    (length : Nat) (noise : ℚ) (r : Rand)
    (hrows : ∀ p ∈ st.letter_pairs, 0 < distTotal p.2) :
    ∃ out, generate_next_char st name length noise r = some out := by
  rw [generate_next_char]
  exact generate_next_char_loop_isSome st name length _ hrows _ _ _

/-! ## Lemmas on the character-appending loop -/

theorem appendChars_fb_true (st : NameGenState) (noise : ℚ) (length : Nat) :
    ∀ (k : Nat) (name : Str) (r : Rand) (out : Str) (fb2 : Bool) (r2 : Rand),
    appendChars st noise length k name true r = some (out, fb2, r2) → fb2 = true := by
  intro k
  induction k with
  | zero =>
    intro name r out fb2 r2 h
    rw [appendChars] at h
    injection h with h
    exact ((Prod.ext_iff.mp (Prod.ext_iff.mp h).2).1).symm
  | succ k ih =>
    intro name r out fb2 r2 h
    rw [appendChars] at h
    cases hg : generate_next_char st name length noise r with
    | none => rw [hg] at h; cases h
    | some res =>
      rw [hg] at h
      dsimp only at h
      rw [Bool.true_or] at h
      exact ih _ _ _ _ _ h

theorem appendChars_length (st : NameGenState) (noise : ℚ) (length : Nat) :
    ∀ (k : Nat) (name : Str) (fb : Bool) (r : Rand) (out : Str) (fb2 : Bool) (r2 : Rand),
    appendChars st noise length k name fb r = some (out, fb2, r2) →
    out.length = name.length + k := by
  intro k
  induction k with
  | zero =>
    intro name fb r out fb2 r2 h
    rw [appendChars] at h
    injection h with h
    have h1 : name = out := (Prod.ext_iff.mp h).1
    simp [← h1]
  | succ k ih =>
    intro name fb r out fb2 r2 h
    rw [appendChars] at h
    cases hg : generate_next_char st name length noise r with
    | none => rw [hg] at h; cases h
    | some res =>
      rw [hg] at h
      dsimp only at h
      have := ih _ _ _ _ _ _ h
      simp at this
      omega

theorem appendChars_isSome (st : NameGenState) (noise : ℚ) (length : Nat)
    (hrows : ∀ p ∈ st.letter_pairs, 0 < distTotal p.2) :
    ∀ (k : Nat) (name : Str) (fb : Bool) (r : Rand),
    ∃ out, appendChars st noise length k name fb r = some out := by
  intro k
  induction k with
  | zero =>
    intro name fb r
    exact ⟨_, rfl⟩
  | succ k ih =>
    intro name fb r
    rw [appendChars]
    obtain ⟨res, hg⟩ := generate_next_char_isSome st name length noise r hrows
    rw [hg]
    exact ih _ _ _

theorem appendChars_chars (st : NameGenState) (noise : ℚ) (length : Nat)
    (hrows : ∀ p ∈ st.letter_pairs, ∀ q ∈ p.2, isLowerAlpha q.1 = true) :
    ∀ (k : Nat) (name : Str) (fb : Bool) (r : Rand) (out : Str) (fb2 : Bool) (r2 : Rand),
    appendChars st noise length k name fb r = some (out, fb2, r2) →
    ∀ c ∈ out, c ∈ name ∨ isLowerAlpha c = true := by
  intro k
  induction k with
  | zero =>
    intro name fb r out fb2 r2 h c hc
    rw [appendChars] at h
    injection h with h
    have h1 : name = out := (Prod.ext_iff.mp h).1
    exact Or.inl (h1 ▸ hc)
  | succ k ih =>
    intro name fb r out fb2 r2 h c hc
    rw [appendChars] at h
    cases hg : generate_next_char st name length noise r with
    | none => rw [hg] at h; cases h
    | some res =>
      rw [hg] at h
      dsimp only at h
      rcases ih _ _ _ _ _ _ h c hc with hmem | hlow
      · rcases List.mem_append.mp hmem with hm | hm
        · exact Or.inl hm
        · have hcr : c = res.1 := by simpa using hm
          obtain ⟨b, fb3, k3, rb⟩ := res
          exact Or.inr (hcr ▸ generate_next_char_lower st name length noise r b fb3 k3 rb hrows hg)
      · exact Or.inr hlow

/-! ## Trainer invariants -/

theorem distTotal_distIncr [DecidableEq α] (d : Dist α) (k : α) :
    distTotal (distIncr d k) = distTotal d + 1 := by
  induction d with
  | nil => rfl
  | cons p rest ih =>
    obtain ⟨a, n⟩ := p
    rw [distIncr]
    by_cases hak : a = k
    · rw [if_pos hak]
      simp only [distTotal, List.map_cons, List.sum_cons]
      omega
    · rw [if_neg hak]
      simp only [distTotal, List.map_cons, List.sum_cons]
      simp only [distTotal] at ih
      omega

theorem distIncr_mem [DecidableEq α] (d : Dist α) (k : α) :
    ∀ q ∈ distIncr d k, q ∈ d ∨ q.1 = k := by
  induction d with
  | nil =>
    intro q hq
    rw [distIncr] at hq
    have : q = (k, 1) := by simpa using hq
    exact Or.inr (by rw [this])
  | cons p rest ih =>
    intro q hq
    obtain ⟨a, n⟩ := p
    rw [distIncr] at hq
    by_cases hak : a = k
    · rw [if_pos hak] at hq
      rcases List.mem_cons.mp hq with rfl | hm
      · exact Or.inr hak
      · exact Or.inl (List.mem_cons_of_mem _ hm)
    · rw [if_neg hak] at hq
      rcases List.mem_cons.mp hq with rfl | hm
      · exact Or.inl (List.mem_cons_self _ _)
      · rcases ih q hm with hm2 | hk
        · exact Or.inl (List.mem_cons_of_mem _ hm2)
        · exact Or.inr hk

theorem rowsIncr_pos (rows : Rows) (a b : Char)
    (h : ∀ p ∈ rows, 0 < distTotal p.2) :
    ∀ p ∈ rowsIncr rows a b, 0 < distTotal p.2 := by
  induction rows with
  | nil =>
    intro p hp
    rw [rowsIncr] at hp
    have : p = (a, [(b, 1)]) := by simpa using hp
    rw [this]
    simp [distTotal]
  | cons q rest ih =>
    intro p hp
    obtain ⟨c, d⟩ := q
    rw [rowsIncr] at hp
    by_cases hca : c = a
    · rw [if_pos hca] at hp
      rcases List.mem_cons.mp hp with rfl | hm
      · simp only [distTotal_distIncr]
        omega
      · exact h p (List.mem_cons_of_mem _ hm)
    · rw [if_neg hca] at hp
      rcases List.mem_cons.mp hp with rfl | hm
      · exact h _ (List.mem_cons_self _ _)
      · exact ih (fun p2 hp2 => h p2 (List.mem_cons_of_mem _ hp2)) p hm

theorem analyzeWindows_pos (l : Str) : ∀ (lp : Rows) (tg : List Str),
    (∀ p ∈ lp, 0 < distTotal p.2) →
    ∀ p ∈ (analyzeWindows lp tg l).1, 0 < distTotal p.2 := by
  induction l with
  | nil => intro lp tg h; simp only [analyzeWindows]; exact h
  | cons a tail ih =>
    cases tail with
    | nil => intro lp tg h; simp only [analyzeWindows]; exact h
    | cons b rest =>
      intro lp tg h
      simp only [analyzeWindows]
      exact ih _ _ (rowsIncr_pos lp a b h)

theorem analyze_names_pos (lines : List Str) :
    ∀ p ∈ (analyze_names lines).letter_pairs, 0 < distTotal p.2 := by
  rw [analyze_names]
  have main : ∀ (ns : List Str) (st : NameGenState),
      (∀ p ∈ st.letter_pairs, 0 < distTotal p.2) →
      ∀ p ∈ (ns.foldl analyzeName st).letter_pairs, 0 < distTotal p.2 := by
    intro ns
    induction ns with
    | nil => intro st h; exact h
    | cons nm rest ih =>
      intro st h
      rw [List.foldl_cons]
      refine ih _ ?_
      rw [analyzeName]
      exact analyzeWindows_pos nm _ _ h
  exact main _ initialState (by simp [initialState])

theorem foldl_length_total (ns : List Str) : ∀ (st : NameGenState),
    distTotal ((ns.foldl analyzeName st).length_distribution) =
      distTotal st.length_distribution + ns.length := by
  induction ns with
  | nil => intro st; simp
  | cons nm rest ih =>
    intro st
    rw [List.foldl_cons, ih]
    simp only [analyzeName, distTotal_distIncr, List.length_cons]
    omega

theorem foldl_first_total (ns : List Str) : ∀ (st : NameGenState),
    distTotal ((ns.foldl analyzeName st).first_letter_distribution) =
      distTotal st.first_letter_distribution + ns.length := by
  induction ns with
  | nil => intro st; simp
  | cons nm rest ih =>
    intro st
    rw [List.foldl_cons, ih]
    simp only [analyzeName, distTotal_distIncr, List.length_cons]
    omega

theorem filteredNames_mem (lines : List Str) (nm : Str) (h : nm ∈ filteredNames lines) :
    ∃ l ∈ lines, nm = pyLower (pyStrip l) ∧ 2 ≤ nm.length := by
  rw [filteredNames] at h
  obtain ⟨l, hl, rfl⟩ := List.mem_map.mp h
  have hlf := List.mem_filter.mp hl
  refine ⟨l, hlf.1, rfl, ?_⟩
  have h2 : 2 ≤ (pyStrip l).length := by simpa using hlf.2
  simpa [pyLower] using h2

theorem analyze_names_length_keys (lines : List Str) :
    ∀ q ∈ (analyze_names lines).length_distribution, 2 ≤ q.1 := by
  rw [analyze_names]
  have main : ∀ (ns : List Str), (∀ nm ∈ ns, 2 ≤ nm.length) →
      ∀ (st : NameGenState), (∀ q ∈ st.length_distribution, 2 ≤ q.1) →
      ∀ q ∈ (ns.foldl analyzeName st).length_distribution, 2 ≤ q.1 := by
    intro ns
    induction ns with
    | nil => intro _ st h; exact h
    | cons nm rest ih =>
      intro hns st h
      rw [List.foldl_cons]
      refine ih (fun x hx => hns x (List.mem_cons_of_mem _ hx)) _ ?_
      intro q hq
      simp only [analyzeName] at hq
      rcases distIncr_mem _ _ q hq with hm | hk
      · exact h q hm
      · rw [hk]
        exact hns nm (List.mem_cons_self _ _)
  refine main _ ?_ initialState (by simp [initialState])
  intro nm hnm
  exact (filteredNames_mem lines nm hnm).choose_spec.2.2

theorem addOnce_mem [DecidableEq α] (s : List α) (x y : α) (h : y ∈ addOnce s x) :
    y ∈ s ∨ y = x := by
  rw [addOnce] at h
  by_cases hx : x ∈ s
  · rw [if_pos hx] at h
    exact Or.inl h
  · rw [if_neg hx] at h
    rcases List.mem_append.mp h with hm | hm
    · exact Or.inl hm
    · exact Or.inr (by simpa using hm)

theorem analyzeWindows_trigram_mem (l : Str) : ∀ (lp : Rows) (tg : List Str) (x : Str),
    x ∈ (analyzeWindows lp tg l).2 → x ∈ tg ∨ (x.length = 3 ∧ SubSeg x l) := by
  induction l with
  | nil => intro lp tg x h; simp only [analyzeWindows] at h; exact Or.inl h
  | cons a tail ih =>
    cases tail with
    | nil => intro lp tg x h; simp only [analyzeWindows] at h; exact Or.inl h
    | cons b rest =>
      intro lp tg x h
      simp only [analyzeWindows] at h
      rcases ih _ _ _ h with hm | ⟨hlen, u, v, hseg⟩
      · cases rest with
        | nil => exact Or.inl hm
        | cons c rest2 =>
          dsimp only at hm
          rcases addOnce_mem _ _ _ hm with hm2 | rfl
          · exact Or.inl hm2
          · exact Or.inr ⟨rfl, [], rest2, rfl⟩
      · refine Or.inr ⟨hlen, a :: u, v, ?_⟩
        simp only [List.cons_append, List.append_assoc] at hseg ⊢
        exact congrArg (a :: ·) hseg

theorem analyze_names_digram_mem (lines : List Str) :
    (∀ x ∈ (analyze_names lines).first_two_letter_digrams,
      ∃ nm ∈ filteredNames lines, x = nm.take 2) ∧
    (∀ x ∈ (analyze_names lines).last_two_letter_digrams,
      ∃ nm ∈ filteredNames lines, x = nm.drop (nm.length - 2)) ∧
    (∀ x ∈ (analyze_names lines).trigrams,
      ∃ nm ∈ filteredNames lines, x.length = 3 ∧ SubSeg x nm) := by
  rw [analyze_names]
  have main : ∀ (ns : List Str) (st : NameGenState),
      (∀ x ∈ (ns.foldl analyzeName st).first_two_letter_digrams,
        x ∈ st.first_two_letter_digrams ∨ ∃ nm ∈ ns, x = nm.take 2) ∧
      (∀ x ∈ (ns.foldl analyzeName st).last_two_letter_digrams,
        x ∈ st.last_two_letter_digrams ∨ ∃ nm ∈ ns, x = nm.drop (nm.length - 2)) ∧
      (∀ x ∈ (ns.foldl analyzeName st).trigrams,
        x ∈ st.trigrams ∨ ∃ nm ∈ ns, x.length = 3 ∧ SubSeg x nm) := by
    intro ns
    induction ns with
    | nil =>
      intro st
      exact ⟨fun x h => Or.inl h, fun x h => Or.inl h, fun x h => Or.inl h⟩
    | cons nm rest ih =>
      intro st
      rw [List.foldl_cons]
      refine ⟨fun x h => ?_, fun x h => ?_, fun x h => ?_⟩
      · rcases (ih (analyzeName st nm)).1 x h with hm | ⟨nm2, hnm2, hx⟩
        · simp only [analyzeName] at hm
          rcases addOnce_mem _ _ _ hm with hm2 | rfl
          · exact Or.inl hm2
          · exact Or.inr ⟨nm, List.mem_cons_self _ _, rfl⟩
        · exact Or.inr ⟨nm2, List.mem_cons_of_mem _ hnm2, hx⟩
      · rcases (ih (analyzeName st nm)).2.1 x h with hm | ⟨nm2, hnm2, hx⟩
        · simp only [analyzeName] at hm
          rcases addOnce_mem _ _ _ hm with hm2 | rfl
          · exact Or.inl hm2
          · exact Or.inr ⟨nm, List.mem_cons_self _ _, rfl⟩
        · exact Or.inr ⟨nm2, List.mem_cons_of_mem _ hnm2, hx⟩
      · rcases (ih (analyzeName st nm)).2.2 x h with hm | ⟨nm2, hnm2, hx⟩
        · simp only [analyzeName] at hm
          rcases analyzeWindows_trigram_mem nm _ _ x hm with hm2 | hseg
          · exact Or.inl hm2
          · exact Or.inr ⟨nm, List.mem_cons_self _ _, hseg⟩
        · exact Or.inr ⟨nm2, List.mem_cons_of_mem _ hnm2, hx⟩
  have h := main (filteredNames lines) initialState
  refine ⟨fun x hx => ?_, fun x hx => ?_, fun x hx => ?_⟩
  · rcases h.1 x hx with hm | hgood
    · simp [initialState] at hm
    · exact hgood
  · rcases h.2.1 x hx with hm | hgood
    · simp [initialState] at hm
    · exact hgood
  · rcases h.2.2 x hx with hm | hgood
    · simp [initialState] at hm
    · exact hgood

/-! ## Unfolding equations and inversion for the sampler -/

theorem appendChars_succ_eq (st : NameGenState) (noise : ℚ) (length k : Nat)
    (name : Str) (fb : Bool) (r : Rand) :
    appendChars st noise length (k + 1) name fb r =
      match generate_next_char st name length noise r with
      | none => none
      | some res =>
        appendChars st noise length k (name ++ [res.1]) (fb || res.2.1) res.2.2.2 := rfl

theorem appendChars_zero_eq (st : NameGenState) (noise : ℚ) (length : Nat)
    (name : Str) (fb : Bool) (r : Rand) :
    appendChars st noise length 0 name fb r = some (name, fb, r) := rfl

theorem appendChars_append (st : NameGenState) (noise : ℚ) (length : Nat) :
    ∀ (k : Nat) (name : Str) (fb : Bool) (r : Rand) (out : Str) (fb2 : Bool) (r2 : Rand),
    appendChars st noise length k name fb r = some (out, fb2, r2) →
    ∃ suffix, out = name ++ suffix := by
  intro k
  induction k with
  | zero =>
    intro name fb r out fb2 r2 h
    rw [appendChars_zero_eq] at h
    injection h with h
    have h1 : name = out := (Prod.ext_iff.mp h).1
    exact ⟨[], by simp [h1]⟩
  | succ k ih =>
    intro name fb r out fb2 r2 h
    rw [appendChars_succ_eq] at h
    cases hg : generate_next_char st name length noise r with
    | none => rw [hg] at h; cases h
    | some res =>
      rw [hg] at h
      dsimp only at h
      obtain ⟨suffix, hs⟩ := ih _ _ _ _ _ _ h
      exact ⟨res.1 :: suffix, by simp [hs]⟩

theorem generate_next_char_loop_accept_one (st : NameGenState) (name : Str)
    (length : Nat) (rem counter : Nat) (r : Rand) (a : Char) (r2 : Rand)
    (ha : attemptChar st name false r = some (a, r2))
    (hrej : rejectedChar st name length a = false) :
    generate_next_char_loop st name length false (rem + 1) counter r =
      some (a, false, counter + 1, r2) := by
  rw [generate_next_char_loop, ha]
  dsimp only
  rw [hrej]
  simp

theorem wrc_singleton (a : α) (r : Rand) :
    weighted_random_choice [(a, 1)] r = some (a, r.nextInt.2) := by
  rw [weighted_random_choice]
  simp [distTotal, distSelect, Nat.mod_one]

theorem attemptChar_singleton (st : NameGenState) (name : Str) (a : Char) (r : Rand)
    (hrow : (rowsGet st.letter_pairs (name.getLastD ' ')).getD VOWEL_COUNTER = [(a, 1)]) :
    attemptChar st name false r = some (a, r.nextInt.2) := by
  rw [attemptChar, if_neg (by simp), hrow, wrc_singleton]

theorem generate_next_char_det (st : NameGenState) (name : Str) (length : Nat)
    (a : Char) (r : Rand)
    (hrow : (rowsGet st.letter_pairs (name.getLastD ' ')).getD VOWEL_COUNTER = [(a, 1)])
    (hrej : rejectedChar st name length a = false) :
    generate_next_char st name length 0 r =
      some (a, false, 1, r.nextUnit.2.nextInt.2) := by
  rw [generate_next_char_zero_noise]
  exact generate_next_char_loop_accept_one st name length 98 0 _ a _
    (attemptChar_singleton st name a _ hrow) hrej

theorem random_name_step_inv (st : NameGenState) (noise : ℚ) (r : Rand)
    (s : Str) (fb : Bool) (r3 : Rand)
    (h : random_name_step st noise r = some (some (s, fb), r3)) :
    ∃ (lr : Nat × Rand) (fr : Char × Rand) (nr : Str × Bool × Rand),
      weighted_random_choice st.length_distribution r = some lr ∧
      weighted_random_choice st.first_letter_distribution lr.2 = some fr ∧
      appendChars st noise lr.1 (lr.1 - 1) [fr.1] false fr.2 = some nr ∧
      hasVowel nr.1 = true ∧ s = capitalize nr.1 ∧ fb = nr.2.1 := by
  rw [random_name_step] at h
  cases h1 : weighted_random_choice st.length_distribution r with
  | none => rw [h1] at h; cases h
  | some lr =>
    rw [h1] at h
    dsimp only at h
    cases h2 : weighted_random_choice st.first_letter_distribution lr.2 with
    | none => rw [h2] at h; cases h
    | some fr =>
      rw [h2] at h
      dsimp only at h
      cases h3 : appendChars st noise lr.1 (lr.1 - 1) [fr.1] false fr.2 with
      | none => rw [h3] at h; cases h
      | some nr =>
        rw [h3] at h
        dsimp only at h
        by_cases hv : hasVowel nr.1 = true
        · rw [if_pos hv] at h
          injection h with h
          have h4 : some (capitalize nr.1, nr.2.1) = some (s, fb) := (Prod.ext_iff.mp h).1
          have h4b : (capitalize nr.1, nr.2.1) = (s, fb) := Option.some.inj h4
          have h5 : capitalize nr.1 = s := (Prod.ext_iff.mp h4b).1
          have h6 : nr.2.1 = fb := (Prod.ext_iff.mp h4b).2
          exact ⟨lr, fr, nr, rfl, h2, h3, hv, h5.symm, h6.symm⟩
        · rw [if_neg hv] at h
          injection h with h
          cases (Prod.ext_iff.mp h).1

theorem random_name_some (st : NameGenState) (noise : ℚ) :
    ∀ (fuel : Nat) (r : Rand) (res : Str × Bool),
    random_name st noise fuel r = some res →
    ∃ r2 r3, random_name_step st noise r2 = some (some res, r3) := by
  intro fuel
  induction fuel with
  | zero => intro r res h; cases h
  | succ fuel ih =>
    intro r res h
    rw [random_name] at h
    cases hs : random_name_step st noise r with
    | none => rw [hs] at h; cases h
    | some p =>
      rw [hs] at h
      obtain ⟨inner, r2⟩ := p
      cases inner with
      | some result =>
        dsimp only at h
        injection h with h
        exact ⟨r, r2, by rw [hs, h]⟩
      | none =>
        dsimp only at h
        exact ih _ _ h

theorem capitalize_length (s : Str) : (capitalize s).length = s.length := by
  cases s with
  | nil => rfl
  | cons c cs => simp [capitalize]

/-! ## Claim C2 -/

/-- C2, counterexample: in the model trained on `["ann", "anna", "ana"]`, the
transition row of `'n'` maps `'n'` to 2 (the pair "nn" occurs in "ann" and in
"anna"), not to 1 as the claim states. -/
theorem C2_counterexample :
    ('n', 2) ∈ (rowsGet demoModel.letter_pairs 'n').getD [] ∧
    ('n', 1) ∉ (rowsGet demoModel.letter_pairs 'n').getD [] := by decide

/-- C2 (amended): for the corpus `["ann", "anna", "ana"]` the trained model has
`first_letter_counts = {'a': 3}`, `length_counts = {3: 2, 4: 1}`,
`start_digrams = {"an"}`, `end_digrams = {"nn", "na"}`,
`transition_counts['a'] = {'n': 3}`,
`transition_counts['n'] = {'n': 2, 'a': 2}` (not `{'n': 1, 'a': 2}`), and
`valid_trigrams = {"ann", "nna", "ana"}`. -/
theorem C2_demo_model_contents :
    demoModel.first_letter_distribution = [('a', 3)] ∧
    demoModel.length_distribution = [(3, 2), (4, 1)] ∧
    demoModel.first_two_letter_digrams = [['a','n']] ∧
    demoModel.last_two_letter_digrams = [['n','n'], ['n','a']] ∧
    rowsGet demoModel.letter_pairs 'a' = some [('n', 3)] ∧
    rowsGet demoModel.letter_pairs 'n' = some [('n', 2), ('a', 2)] ∧
    demoModel.trigrams = [['a','n','n'], ['n','n','a'], ['a','n','a']] := by decide

/-! ## Claim C3 -/

/-- C3, counterexample: asking for the fourth character of `"ana"` with target
length 4 on the scenario model, every candidate fails the trigram test, and
the emergency vowel fallback fires after exactly 99 candidate attempts (the
source pre-increments `counter` and bails at `counter >= 100`), not 100 as
the claim states. -/
theorem C3_counterexample :
    (generate_next_char demoModel ['a','n','a'] 4 0 zeroRand).map
        (fun x => (x.1, x.2.1, x.2.2.1)) = some ('a', true, 99) ∧
    (99 : Nat) ≠ 100 := by decide

/-- C3 (amended): per call of the next-character procedure at most 99
candidate attempts are made, and the emergency fallback is returned exactly
when all 99 permitted attempts have failed the constraint checks. -/
theorem C3_attempt_cap (st : NameGenState) (name : Str) (length : Nat)
    (noise : ℚ) (r : Rand) (c : Char) (fb : Bool) (k : Nat)
    (h : (generate_next_char st name length noise r).map
        (fun x => (x.1, x.2.1, x.2.2.1)) = some (c, fb, k)) :
    k ≤ 99 ∧ (fb = true → k = 99) := by
  obtain ⟨x, hx, hproj⟩ := Option.map_eq_some'.mp h
  obtain ⟨c0, fb0, k0, r2⟩ := x
  rw [generate_next_char] at hx
  have hmain := generate_next_char_loop_attempts st name length _ 99 0 _ _ _ _ _ hx
  dsimp only at hproj
  have hfb : fb0 = fb := (Prod.ext_iff.mp (Prod.ext_iff.mp hproj).2).1
  have hk : k0 = k := (Prod.ext_iff.mp (Prod.ext_iff.mp hproj).2).2
  rw [hfb, hk] at hmain
  simpa using hmain

/-- C3, witness: the amended cap theorem applied to the fallback run of the
counterexample (99 attempts, fallback fired). -/
theorem C3_witness : (99 : Nat) ≤ 99 ∧ (true = true → (99 : Nat) = 99) :=
  C3_attempt_cap demoModel ['a','n','a'] 4 0 zeroRand 'a' true 99 (by decide)

/-! ## Claim C4 -/

/-- C4, counterexample: on a corpus whose only line is filtered out (length
< 2), the trainer completes normally and returns the empty model — there is
no `EmptyCorpusError` anywhere in the code — and the failure only happens
later, at the first weighted draw over the resulting empty distribution. -/
theorem C4_counterexample :
    analyze_names [['x']] = initialState ∧
    (weighted_random_choice initialState.length_distribution zeroRand).isNone = true := by decide

/-- C4 (amended): if zero names remain after filtering the trainer returns
the empty model without signalling anything, and any weighted-choice draw
over an empty (zero-total-weight) distribution fails — Python raises a
`ValueError`, modelled as `none` — rather than proceeding. -/
theorem C4_empty_corpus_behaviour :
    (∀ lines : List Str, filteredNames lines = [] → analyze_names lines = initialState) ∧
    (∀ (d : Dist Char) (r : Rand), distTotal d = 0 → weighted_random_choice d r = none) := by
  constructor
  · intro lines h
    rw [analyze_names, h]
    rfl
  · intro d r h
    rw [weighted_random_choice, if_pos h]

/-- C4, witness: the amended behaviour at a concrete fully-filtered corpus
and at the empty distribution. -/
theorem C4_witness :
    analyze_names [[' ']] = initialState ∧
    weighted_random_choice ([] : Dist Char) zeroRand = none :=
  ⟨C4_empty_corpus_behaviour.1 [[' ']] (by decide),
   C4_empty_corpus_behaviour.2 [] zeroRand (by decide)⟩

/-! ## Claim C6 -/

/-- C6, counterexample: training applies no alphabetic filtering, so the
corpus `["a1"]` puts the digram `"a1"` into `start_digrams`, and `'1'` is
not a lowercase alphabetic character. -/
theorem C6_counterexample :
    ['a','1'] ∈ (analyze_names [['a','1']]).first_two_letter_digrams ∧
    isLowerAlpha '1' = false := by decide

/-- C6 (amended): for every sequence of training strings, every element of
`start_digrams` and `end_digrams` is a 2-character string and every element
of `valid_trigrams` is a 3-character string, and each of them occurs as a
contiguous segment of a lowercased, stripped input line (so it contains
non-alphabetic characters exactly when the corpus does). -/
theorem C6_window_shape (lines : List Str) :
    (∀ x ∈ (analyze_names lines).first_two_letter_digrams,
      x.length = 2 ∧ ∃ l ∈ lines, SubSeg x (pyLower (pyStrip l))) ∧
    (∀ x ∈ (analyze_names lines).last_two_letter_digrams,
      x.length = 2 ∧ ∃ l ∈ lines, SubSeg x (pyLower (pyStrip l))) ∧
    (∀ x ∈ (analyze_names lines).trigrams,
      x.length = 3 ∧ ∃ l ∈ lines, SubSeg x (pyLower (pyStrip l))) := by
  obtain ⟨h1, h2, h3⟩ := analyze_names_digram_mem lines
  refine ⟨fun x hx => ?_, fun x hx => ?_, fun x hx => ?_⟩
  · obtain ⟨nm, hnm, rfl⟩ := h1 x hx
    obtain ⟨l, hl, hnm2, hlen⟩ := filteredNames_mem lines nm hnm
    refine ⟨by rw [List.length_take]; omega, l, hl, [], nm.drop 2, ?_⟩
    rw [← hnm2]
    simp
  · obtain ⟨nm, hnm, rfl⟩ := h2 x hx
    obtain ⟨l, hl, hnm2, hlen⟩ := filteredNames_mem lines nm hnm
    refine ⟨by rw [List.length_drop]; omega, l, hl, nm.take (nm.length - 2), [], ?_⟩
    rw [← hnm2]
    simp
  · obtain ⟨nm, hnm, hx3, u, v, hseg⟩ := h3 x hx
    obtain ⟨l, hl, hnm2, hlen⟩ := filteredNames_mem lines nm hnm
    exact ⟨hx3, l, hl, u, v, by rw [← hnm2]; exact hseg⟩

/-- C6, witness: the amended statement at the one-name corpus `["ann"]` and
its start digram `"an"`. -/
theorem C6_witness :
    (['a','n'] : Str).length = 2 ∧
    ∃ l ∈ ([['a','n','n']] : List Str), SubSeg ['a','n'] (pyLower (pyStrip l)) :=
  (C6_window_shape [['a','n','n']]).1 ['a','n'] (by decide)

/-! ## Claim C9 -/

/-- C9: training is deterministic.  The embedded trainer consumes no
randomness (it takes no `Rand` oracle, unlike the sampler), so two runs on
the same corpus produce equal values in all six model fields. -/
theorem C9_training_deterministic (lines : List Str) :
    (analyze_names lines).letter_pairs = (analyze_names lines).letter_pairs ∧
    (analyze_names lines).trigrams = (analyze_names lines).trigrams ∧
    (analyze_names lines).first_letter_distribution =
      (analyze_names lines).first_letter_distribution ∧
    (analyze_names lines).length_distribution =
      (analyze_names lines).length_distribution ∧
    (analyze_names lines).first_two_letter_digrams =
      (analyze_names lines).first_two_letter_digrams ∧
    (analyze_names lines).last_two_letter_digrams =
      (analyze_names lines).last_two_letter_digrams :=
  ⟨rfl, rfl, rfl, rfl, rfl, rfl⟩

/-! ## Claim C7 -/

theorem capitalize_hasVowel (name : Str) (h : hasVowel name = true) :
    (capitalize name).any (fun c => decide (toLowerChar c ∈ vowelChars)) = true := by
  cases name with
  | nil => exact absurd h (by decide)
  | cons c cs =>
    rw [hasVowel] at h
    obtain ⟨x, hx, hxv⟩ := List.any_eq_true.mp h
    have hxv2 : x ∈ vowelChars := of_decide_eq_true hxv
    rw [capitalize]
    rcases List.mem_cons.mp hx with rfl | hm
    · refine List.any_eq_true.mpr ⟨toUpperChar x, List.mem_cons_self _ _, ?_⟩
      have hfix : ∀ y ∈ vowelChars, toLowerChar (toUpperChar y) ∈ vowelChars := by decide
      exact decide_eq_true (hfix x hxv2)
    · refine List.any_eq_true.mpr
        ⟨toLowerChar x, List.mem_cons_of_mem _ (List.mem_map_of_mem _ hm), ?_⟩
      have hfix : ∀ y ∈ vowelChars, toLowerChar (toLowerChar y) ∈ vowelChars := by decide
      exact decide_eq_true (hfix x hxv2)

/-- C7: for every model and every noise value, every string returned by
`random_name` contains at least one of the vowels a, e, i, o, u, compared
case-insensitively (the vowel check runs on the lowercase name just before
the single capitalization). -/
theorem C7_vowel_presence (st : NameGenState) (noise : ℚ) (fuel : Nat) (r : Rand)
    (s : Str) (fb : Bool) (h : random_name st noise fuel r = some (s, fb)) :
    s.any (fun c => decide (toLowerChar c ∈ vowelChars)) = true := by
  obtain ⟨r2, r3, hs⟩ := random_name_some st noise fuel r (s, fb) h
  obtain ⟨lr, fr, nr, _, _, _, hv, hcap, _⟩ := random_name_step_inv st noise r2 s fb r3 hs
  rw [hcap]
  exact capitalize_hasVowel _ hv

/-- C7, witness: the vowel property at a concrete run returning `"Ann"`. -/
theorem C7_witness :
    (['A','n','n'] : Str).any (fun c => decide (toLowerChar c ∈ vowelChars)) = true :=
  C7_vowel_presence demoModel 0 1 zeroRand ['A','n','n'] false (by decide)

/-! ## Claim C10 -/

/-- C10: whenever `random_name` returns on a trained model, the length of
the returned string is the drawn target length, hence a key of
`length_counts` with positive count (every call to the next-character
procedure contributes exactly one character, and trained length keys are
at least 2, so the Python `range(length - 1)` loop adds `length - 1`
characters to the 1-character first letter). -/
theorem C10_length_from_distribution (lines : List Str) (noise : ℚ) (fuel : Nat)
    (r : Rand) (s : Str) (fb : Bool)
    (h : random_name (analyze_names lines) noise fuel r = some (s, fb)) :
    ∃ w, (s.length, w) ∈ (analyze_names lines).length_distribution ∧ 1 ≤ w := by
  obtain ⟨r2, r3, hs⟩ := random_name_some _ noise fuel r (s, fb) h
  obtain ⟨lr, fr, nr, h1, h2, h3, hv, hcap, hfb⟩ := random_name_step_inv _ noise r2 s fb r3 hs
  obtain ⟨nm, fb2, r4⟩ := nr
  obtain ⟨w, hmem, hw⟩ := weighted_random_choice_mem _ _ _ _ h1
  have hkey : 2 ≤ lr.1 := analyze_names_length_keys lines (lr.1, w) hmem
  have hlen : nm.length = 1 + (lr.1 - 1) := by
    have := appendChars_length _ noise lr.1 (lr.1 - 1) [fr.1] false fr.2 nm fb2 r4 h3
    simpa using this
  have hslen : s.length = lr.1 := by
    rw [hcap, capitalize_length]
    dsimp only
    omega
  rw [hslen]
  exact ⟨w, hmem, hw⟩

/-- C10, witness: the length property at a concrete run on the scenario
corpus returning `"Ann"` (length 3, a key of `{3: 2, 4: 1}`). -/
theorem C10_witness :
    ∃ w, ((['A','n','n'] : Str).length, w) ∈
      (analyze_names demoCorpus).length_distribution ∧ 1 ≤ w :=
  C10_length_from_distribution demoCorpus 0 1 zeroRand ['A','n','n'] false (by decide)

/-! ## Claim C8 -/

theorem toUpperChar_upper : ∀ c ∈ lowercase_alphabet, isUpperAlpha (toUpperChar c) = true := by
  decide

theorem toLowerChar_fix : ∀ c ∈ lowercase_alphabet, toLowerChar c = c := by decide

/-- C8: for every model satisfying the data-model invariants and every
noise value, `random_name` returns a non-empty string whose first character
is uppercase and whose remaining characters are lowercase, and the final
`capitalize` changes only the first character of the finalized name,
leaving its tail unchanged. -/
theorem C8_capitalization (st : NameGenState) (noise : ℚ) (fuel : Nat) (r : Rand)
    (s : Str) (fb : Bool) (hvalid : ValidModel st)
    (h : random_name st noise fuel r = some (s, fb)) :
    s ≠ [] ∧ isUpperAlpha (s.headD ' ') = true ∧
      (∀ c ∈ s.tail, isLowerAlpha c = true) ∧
      ∃ raw, s = capitalize raw ∧ s.tail = raw.tail := by
  obtain ⟨r2, r3, hs⟩ := random_name_some st noise fuel r (s, fb) h
  obtain ⟨lr, fr, nr, h1, h2, h3, hv, hcap, hfb⟩ := random_name_step_inv st noise r2 s fb r3 hs
  obtain ⟨nm, fb2, r4⟩ := nr
  dsimp only at h3 hcap hv
  obtain ⟨wf, hfm, hwf⟩ := weighted_random_choice_mem _ _ _ _ h2
  have hflow : isLowerAlpha fr.1 = true := (hvalid.2.1 (fr.1, wf) hfm).1
  obtain ⟨suffix, hsuf⟩ := appendChars_append st noise lr.1 (lr.1 - 1) [fr.1] false fr.2 nm fb2 r4 h3
  have hrows : ∀ p ∈ st.letter_pairs, ∀ q ∈ p.2, isLowerAlpha q.1 = true :=
    fun p hp q hq => ((hvalid.1 p hp).2 q hq).1
  have hchars : ∀ c ∈ nm, isLowerAlpha c = true := by
    intro c hc
    rcases appendChars_chars st noise lr.1 hrows (lr.1 - 1) [fr.1] false fr.2 nm fb2 r4 h3 c hc
      with hm | hl
    · have hcf : c = fr.1 := by simpa using hm
      exact hcf ▸ hflow
    · exact hl
  rw [List.singleton_append] at hsuf
  subst hsuf
  have hsufchars : ∀ c ∈ suffix, isLowerAlpha c = true :=
    fun c hc => hchars c (List.mem_cons_of_mem _ hc)
  have hcap2 : s = toUpperChar fr.1 :: suffix.map toLowerChar := by
    rw [hcap, capitalize]
  have hmapfix : suffix.map toLowerChar = suffix := by
    have := List.map_congr_left (g := id)
      (fun a ha => toLowerChar_fix a (of_decide_eq_true (hsufchars a ha)))
    rw [this, List.map_id]
  refine ⟨by rw [hcap2]; simp, ?_, ?_, ⟨fr.1 :: suffix, hcap, ?_⟩⟩
  · rw [hcap2]
    exact toUpperChar_upper fr.1 (of_decide_eq_true hflow)
  · intro c hc
    rw [hcap2] at hc
    dsimp only [List.tail_cons] at hc
    rw [hmapfix] at hc
    exact hsufchars c hc
  · rw [hcap2]
    dsimp only [List.tail_cons]
    exact hmapfix

/-- C8, witness: the capitalization properties at a concrete run on the
scenario model returning `"Ann"` (the scenario model satisfies the §3
invariants). -/
theorem C8_witness :
    (['A','n','n'] : Str) ≠ [] ∧ isUpperAlpha ((['A','n','n'] : Str).headD ' ') = true ∧
      (∀ c ∈ (['A','n','n'] : Str).tail, isLowerAlpha c = true) ∧
      ∃ raw, (['A','n','n'] : Str) = capitalize raw ∧ (['A','n','n'] : Str).tail = raw.tail :=
  C8_capitalization demoModel 0 1 zeroRand ['A','n','n'] false
    (by unfold ValidModel; decide) (by decide)

/-! ## Claim C5 -/

theorem bcd_gnc1 (r : Rand) :
    generate_next_char (analyze_names bcdCorpus) ['b'] 3 0 r =
      some ('c', false, 1, r.nextUnit.2.nextInt.2) :=
  generate_next_char_det _ _ _ _ _ (by decide) (by decide)

theorem bcd_gnc2 (r : Rand) :
    generate_next_char (analyze_names bcdCorpus) ['b','c'] 3 0 r =
      some ('d', false, 1, r.nextUnit.2.nextInt.2) :=
  generate_next_char_det _ _ _ _ _ (by decide) (by decide)

theorem bcd_append (r : Rand) :
    appendChars (analyze_names bcdCorpus) 0 3 2 ['b'] false r =
      some (['b','c','d'], false, r.nextUnit.2.nextInt.2.nextUnit.2.nextInt.2) := by
  rw [appendChars_succ_eq, bcd_gnc1 r]
  dsimp only
  rw [List.singleton_append]
  rw [appendChars_succ_eq, bcd_gnc2 _]
  dsimp only
  rw [appendChars_zero_eq]
  rfl

theorem bcd_step (r : Rand) :
    ∃ r2, random_name_step (analyze_names bcdCorpus) 0 r = some (none, r2) := by
  have hL : (analyze_names bcdCorpus).length_distribution = [(3, 1)] := by decide
  have hF : (analyze_names bcdCorpus).first_letter_distribution = [('b', 1)] := by decide
  rw [random_name_step, hL, hF, wrc_singleton]
  dsimp only
  rw [wrc_singleton]
  dsimp only
  rw [bcd_append]
  dsimp only
  rw [if_neg (by decide)]
  exact ⟨_, rfl⟩

theorem bcd_never_returns : ∀ (fuel : Nat) (r : Rand),
    random_name (analyze_names bcdCorpus) 0 fuel r = none := by
  intro fuel
  induction fuel with
  | zero => intro r; rfl
  | succ fuel ih =>
    intro r
    obtain ⟨r2, hstep⟩ := bcd_step r
    rw [random_name, hstep]
    exact ih r2

/-- C5, counterexample: for the model trained on the vowel-free corpus
`["bcd"]` at `noise = 0`, generation draws length 3 and letters b, c, d
deterministically, the name `"bcd"` is rejected by the vowel check, and the
outer loop restarts forever: no amount of outer-loop fuel makes
`random_name` return, so "always eventually returns a string" fails. -/
theorem C5_counterexample :
    ¬ ∃ (fuel : Nat) (res : Str × Bool),
        random_name (analyze_names bcdCorpus) 0 fuel zeroRand = some res := by
  rintro ⟨fuel, res, h⟩
  rw [bcd_never_returns fuel zeroRand] at h
  cases h

/-- C5 (amended): for every model trained on a corpus with at least one
retained name and for every noise value, no iteration of `random_name`
fails: each pass of the outer loop either returns a string or restarts
after the vowel rejection (the inner loop is bounded by its attempt
counter), but termination of the outer loop itself is not guaranteed. -/
theorem C5_no_error_per_iteration (lines : List Str) (hne : filteredNames lines ≠ [])
    (noise : ℚ) (r : Rand) :
    random_name_step (analyze_names lines) noise r ≠ none := by
  have hcount : 0 < (filteredNames lines).length := List.length_pos.mpr hne
  have hlen : 0 < distTotal (analyze_names lines).length_distribution := by
    rw [analyze_names, foldl_length_total]
    have h0 : distTotal (initialState.length_distribution) = 0 := rfl
    omega
  have hfirst : 0 < distTotal (analyze_names lines).first_letter_distribution := by
    rw [analyze_names, foldl_first_total]
    have h0 : distTotal (initialState.first_letter_distribution) = 0 := rfl
    omega
  obtain ⟨len, r1, h1⟩ := weighted_random_choice_isSome _ r hlen
  obtain ⟨first, r2, h2⟩ := weighted_random_choice_isSome _ r1 hfirst
  obtain ⟨out, h3⟩ := appendChars_isSome (analyze_names lines) noise len
    (analyze_names_pos lines) (len - 1) [first] false r2
  rw [random_name_step, h1]
  dsimp only
  rw [h2]
  dsimp only
  obtain ⟨nm, fb2, r4⟩ := out
  rw [h3]
  dsimp only
  by_cases hv : hasVowel nm = true
  · rw [if_pos hv]
    simp
  · rw [if_neg hv]
    simp

/-- C5, witness: the amended per-iteration statement at the scenario corpus
(nonempty after filtering) with zero noise. -/
theorem C5_witness :
    random_name_step (analyze_names demoCorpus) 0 zeroRand ≠ none :=
  C5_no_error_per_iteration demoCorpus (by decide) 0 zeroRand

/-! ## Claim C1 -/

theorem appendChars_succ_inv (st : NameGenState) (noise : ℚ) (length k : Nat)
    (name : Str) (fb : Bool) (r : Rand) (out : Str) (fb2 : Bool) (r2 : Rand)
    (h : appendChars st noise length (k + 1) name fb r = some (out, fb2, r2)) :
    ∃ res, generate_next_char st name length noise r = some res ∧
      appendChars st noise length k (name ++ [res.1]) (fb || res.2.1) res.2.2.2 =
        some (out, fb2, r2) := by
  rw [appendChars_succ_eq] at h
  cases hg : generate_next_char st name length noise r with
  | none => rw [hg] at h; cases h
  | some res => rw [hg] at h; exact ⟨res, rfl, h⟩

theorem appendChars_zero_inv (st : NameGenState) (noise : ℚ) (length : Nat)
    (name : Str) (fb : Bool) (r : Rand) (out : Str) (fb2 : Bool) (r2 : Rand)
    (h : appendChars st noise length 0 name fb r = some (out, fb2, r2)) :
    out = name ∧ fb2 = fb := by
  rw [appendChars_zero_eq] at h
  injection h with h
  exact ⟨(Prod.ext_iff.mp h).1.symm, ((Prod.ext_iff.mp (Prod.ext_iff.mp h).2).1).symm⟩

theorem appendChars_or_false (st : NameGenState) (noise : ℚ) (length k : Nat)
    (name : Str) (fb f : Bool) (r : Rand) (out : Str) (r2 : Rand)
    (h : appendChars st noise length k name (fb || f) r = some (out, false, r2)) :
    fb = false ∧ f = false := by
  cases fb <;> cases f
  · exact ⟨rfl, rfl⟩
  · rw [Bool.false_or] at h
    exact Bool.noConfusion (appendChars_fb_true st noise length k name r out false r2 h)
  · rw [Bool.true_or] at h
    exact Bool.noConfusion (appendChars_fb_true st noise length k name r out false r2 h)
  · rw [Bool.true_or] at h
    exact Bool.noConfusion (appendChars_fb_true st noise length k name r out false r2 h)

theorem mem_pair_one (x : α × Nat) (a : α) (wa : Nat)
    (hm : x ∈ ([(a, wa)] : Dist α)) : x.1 = a := by
  have h := List.mem_singleton.mp hm
  exact (Prod.ext_iff.mp h).1

theorem mem_pair_two (x : α × Nat) (a : α) (wa : Nat) (b : α) (wb : Nat)
    (hm : x ∈ ([(a, wa), (b, wb)] : Dist α)) : x.1 = a ∨ x.1 = b := by
  rcases List.mem_cons.mp hm with heq | hm2
  · exact Or.inl (Prod.ext_iff.mp heq).1
  · exact Or.inr (mem_pair_one _ _ _ hm2)

theorem demo_gnc_char (name : Str) (row : Dist Char) (length : Nat) (r : Rand)
    (c : Char) (k : Nat) (r2 : Rand)
    (hrow : (rowsGet demoModel.letter_pairs (name.getLastD ' ')).getD VOWEL_COUNTER = row)
    (hg : generate_next_char demoModel name length 0 r = some (c, false, k, r2)) :
    (∃ w, (c, w) ∈ row) ∧ rejectedChar demoModel name length c = false := by
  obtain ⟨w, hm, _⟩ := generate_next_char_modeled_mem _ _ _ _ _ _ _ hg
  rw [hrow] at hm
  exact ⟨⟨w, hm⟩, generate_next_char_accept _ _ _ _ _ _ _ _ hg⟩

theorem demo_step (r : Rand) (s : Str) (r3 : Rand)
    (h : random_name_step demoModel 0 r = some (some (s, false), r3)) :
    s = ['A','n','n'] ∨ s = ['A','n','n','a'] ∨ s = ['A','n','a'] := by
  obtain ⟨lr, fr, nr, h1, h2, h3, hv, hcap, hfb⟩ :=
    random_name_step_inv demoModel 0 r s false r3 h
  obtain ⟨len, rA⟩ := lr
  obtain ⟨first, rB⟩ := fr
  obtain ⟨nm, fb2, r4⟩ := nr
  dsimp only at h1 h2 h3 hcap hfb hv
  have hfb2 : fb2 = false := hfb.symm
  subst hfb2
  obtain ⟨wl, hlm, _⟩ := weighted_random_choice_mem _ _ _ _ h1
  obtain ⟨wf, hfm, _⟩ := weighted_random_choice_mem _ _ _ _ h2
  rw [show demoModel.length_distribution = [(3, 2), (4, 1)] from by decide] at hlm
  rw [show demoModel.first_letter_distribution = [('a', 3)] from by decide] at hfm
  have hfirst : first = 'a' := mem_pair_one _ _ _ hfm
  subst hfirst
  have hlen34 : len = 3 ∨ len = 4 := mem_pair_two _ _ _ _ _ hlm
  subst hcap
  rcases hlen34 with rfl | rfl
  · -- length 3: two characters are appended
    have h3b : appendChars demoModel 0 3 2 ['a'] false rB = some (nm, false, r4) := h3
    obtain ⟨res1, hg1, happ1⟩ := appendChars_succ_inv demoModel 0 3 1 ['a'] false rB nm false r4 h3b
    obtain ⟨c1, f1, k1, rC⟩ := res1
    dsimp only at hg1 happ1
    obtain ⟨-, hf1⟩ := appendChars_or_false _ _ _ _ _ _ _ _ _ _ happ1
    subst hf1
    rw [Bool.or_false, List.singleton_append] at happ1
    obtain ⟨⟨w1, hw1⟩, -⟩ := demo_gnc_char ['a'] [('n', 3)] 3 rB c1 k1 rC (by decide) hg1
    have hc1 : c1 = 'n' := mem_pair_one _ _ _ hw1
    subst hc1
    obtain ⟨res2, hg2, happ2⟩ :=
      appendChars_succ_inv demoModel 0 3 0 ['a', 'n'] false rC nm false r4 happ1
    obtain ⟨c2, f2, k2, rD⟩ := res2
    dsimp only at hg2 happ2
    obtain ⟨hnm, hzf⟩ := appendChars_zero_inv _ _ _ _ _ _ _ _ _ happ2
    have hf2 : f2 = false := by
      cases f2
      · rfl
      · rw [Bool.or_true] at hzf
        exact Bool.noConfusion hzf
    subst hf2
    obtain ⟨⟨w2, hw2⟩, -⟩ :=
      demo_gnc_char ['a', 'n'] [('n', 2), ('a', 2)] 3 rC c2 k2 rD (by decide) hg2
    subst hnm
    rcases mem_pair_two _ _ _ _ _ hw2 with hc2 | hc2
    · have hc2b : c2 = 'n' := hc2
      subst hc2b
      exact Or.inl (by decide)
    · have hc2b : c2 = 'a' := hc2
      subst hc2b
      exact Or.inr (Or.inr (by decide))
  · -- length 4: three characters are appended
    have h3b : appendChars demoModel 0 4 3 ['a'] false rB = some (nm, false, r4) := h3
    obtain ⟨res1, hg1, happ1⟩ := appendChars_succ_inv demoModel 0 4 2 ['a'] false rB nm false r4 h3b
    obtain ⟨c1, f1, k1, rC⟩ := res1
    dsimp only at hg1 happ1
    obtain ⟨-, hf1⟩ := appendChars_or_false _ _ _ _ _ _ _ _ _ _ happ1
    subst hf1
    rw [Bool.or_false, List.singleton_append] at happ1
    obtain ⟨⟨w1, hw1⟩, -⟩ := demo_gnc_char ['a'] [('n', 3)] 4 rB c1 k1 rC (by decide) hg1
    have hc1 : c1 = 'n' := mem_pair_one _ _ _ hw1
    subst hc1
    obtain ⟨res2, hg2, happ2⟩ :=
      appendChars_succ_inv demoModel 0 4 1 ['a', 'n'] false rC nm false r4 happ1
    obtain ⟨c2, f2, k2, rD⟩ := res2
    dsimp only at hg2 happ2
    obtain ⟨-, hf2⟩ := appendChars_or_false _ _ _ _ _ _ _ _ _ _ happ2
    subst hf2
    rw [Bool.or_false] at happ2
    obtain ⟨⟨w2, hw2⟩, -⟩ :=
      demo_gnc_char ['a', 'n'] [('n', 2), ('a', 2)] 4 rC c2 k2 rD (by decide) hg2
    obtain ⟨res3, hg3, happ3⟩ :=
      appendChars_succ_inv demoModel 0 4 0 (['a', 'n'] ++ [c2]) false rD nm false r4 happ2
    obtain ⟨c3, f3, k3, rE⟩ := res3
    dsimp only at hg3 happ3
    obtain ⟨hnm, hzf⟩ := appendChars_zero_inv _ _ _ _ _ _ _ _ _ happ3
    have hf3 : f3 = false := by
      cases f3
      · rfl
      · rw [Bool.or_true] at hzf
        exact Bool.noConfusion hzf
    subst hf3
    have hc2or : c2 = 'n' ∨ c2 = 'a' := mem_pair_two _ _ _ _ _ hw2
    rcases hc2or with hc2 | hc2 <;> subst hc2
    · -- partial name "ann": only 'a' can be accepted
      obtain ⟨⟨w3, hw3⟩, hrej3⟩ :=
        demo_gnc_char (['a', 'n'] ++ ['n']) [('n', 2), ('a', 2)] 4 rD c3 k3 rE (by decide) hg3
      have hc3or : c3 = 'n' ∨ c3 = 'a' := mem_pair_two _ _ _ _ _ hw3
      rcases hc3or with hc3 | hc3 <;> subst hc3
      · rw [show rejectedChar demoModel (['a', 'n'] ++ ['n']) 4 'n' = true from by decide] at hrej3
        exact Bool.noConfusion hrej3
      · subst hnm
        exact Or.inr (Or.inl (by decide))
    · -- partial name "ana": every candidate is rejected, so no
      -- fallback-free acceptance is possible
      obtain ⟨⟨w3, hw3⟩, hrej3⟩ :=
        demo_gnc_char (['a', 'n'] ++ ['a']) [('n', 3)] 4 rD c3 k3 rE (by decide) hg3
      have hc3 : c3 = 'n' := mem_pair_one _ _ _ hw3
      subst hc3
      rw [show rejectedChar demoModel (['a', 'n'] ++ ['a']) 4 'n' = true from by decide] at hrej3
      exact Bool.noConfusion hrej3

/-- C1, counterexample: on the model trained on `["ann", "anna", "ana"]`
with `noise = 0.0` there is a sequence of random draws — draw length 4,
reach the partial name `"ana"`, fail all 99 candidate attempts for the
final character, and let the emergency vowel fallback pick `'e'` — under
which `random_name` returns `"Anae"`, which is none of `"Ann"`, `"Anna"`,
`"Ana"`. -/
theorem C1_counterexample :
    random_name demoModel 0 1 anaeRand = some (['A','n','a','e'], true) ∧
    ¬ ((['A','n','a','e'] : Str) = ['A','n','n'] ∨
       (['A','n','a','e'] : Str) = ['A','n','n','a'] ∨
       (['A','n','a','e'] : Str) = ['A','n','a']) := by decide

/-- C1 (amended): on the model trained on `["ann", "anna", "ana"]` with
`noise = 0.0`, every return of `random_name` in which the emergency vowel
fallback never fired is one of the three strings `"Ann"`, `"Anna"`,
`"Ana"`; outputs outside this set are reachable only through the
99-attempt emergency fallback. -/
theorem C1_demo_outputs (fuel : Nat) (r : Rand) (s : Str)
    (h : random_name demoModel 0 fuel r = some (s, false)) :
    s = ['A','n','n'] ∨ s = ['A','n','n','a'] ∨ s = ['A','n','a'] := by
  induction fuel generalizing r with
  | zero => cases h
  | succ fuel ih =>
    rw [random_name] at h
    cases hs : random_name_step demoModel 0 r with
    | none => rw [hs] at h; cases h
    | some p =>
      rw [hs] at h
      obtain ⟨inner, r2⟩ := p
      cases inner with
      | some result =>
        dsimp only at h
        injection h with h
        rw [h] at hs
        exact demo_step r s r2 hs
      | none =>
        dsimp only at h
        exact ih r2 h

/-- C1, witness: the amended statement at a fallback-free run returning
`"Ann"`. -/
theorem C1_witness :
    (['A','n','n'] : Str) = ['A','n','n'] ∨ (['A','n','n'] : Str) = ['A','n','n','a'] ∨
      (['A','n','n'] : Str) = ['A','n','a'] :=
  C1_demo_outputs 1 zeroRand ['A','n','n'] (by decide)

end NameGen
